import Mathlib

/-!
Shallow embedding of the "stencil" structural search-and-rewrite engine
(a Go program: packages `matcher` and `executor`, rule AST from package
`grammar`).

Go values flowing through the matcher are `any` values holding either
`nil`, a `string`, an `*ast.Ident`, some other AST node, or a slice of
nodes.  They are embedded as the inductive `GoVal` below; the `Nat`
carried by identifiers and nodes stands for the Go pointer identity.
Go's `map[string]any` bindings become association lists with
insert-or-replace update (`insertB`), which is the canonical
determinisation of an unordered Go map.

Functions are translated one-for-one from the Go sources: the matcher
from `matcher/matcher.go`, the executor from `executor/executor.go`.
The Go frontend (`go/parser`, `go/format`) is an external collaborator
and is passed in as a function argument where the executor calls it.
-/

namespace Stencil

/-- Embedded Go runtime value: nil, string, identifier node, other AST
node (kind plus named fields), or slice.  The `Nat` is pointer identity. -/
inductive GoVal where
  | vnil : GoVal
  | vstr : String → GoVal
  | vident : Nat → String → GoVal
  | vnode : Nat → String → List (String × GoVal) → GoVal
  | vlist : List GoVal → GoVal

mutual
/-- Pre-order traversal of a value, following `ast.Inspect`/`ast.Walk`:
a node is visited, then the sub-nodes reachable from its fields in field
order; list fields contribute their elements' subtrees; nil, strings and
other non-node payloads are not visited. -/
def preorder : GoVal → List GoVal
  | .vnil => []
  | .vstr _ => []
  | .vident i n => [.vident i n]
  | .vnode i k fs => .vnode i k fs :: preorderFlds fs
  | .vlist es => preorderVals es

def preorderFlds : List (String × GoVal) → List GoVal
  | [] => []
  | (_, fv) :: rest => preorder fv ++ preorderFlds rest

def preorderVals : List GoVal → List GoVal
  | [] => []
  | v :: rest => preorder v ++ preorderVals rest
end

/-- Bindings (`type Bindings map[string]any`): keys are binding names,
values the captured `GoVal` (a key mapped to Go `nil` stores `.vnil`). -/
abbrev Bindings := List (String × GoVal)

/-- Go map read `b[x]`; `none` means the key is absent. -/
def lookupB : Bindings → String → Option GoVal
  | [], _ => none
  | (k, v) :: rest, x => if k == x then some v else lookupB rest x

/-- Go map write `b[x] = v`: replace the existing entry or append. -/
def insertB : Bindings → String → GoVal → Bindings
  | [], x, v => [(x, v)]
  | (k, w) :: rest, x, v => if k == x then (k, v) :: rest else (k, w) :: insertB rest x v

-- --- character / string helpers (ASCII, as in the Go source) ---

/-- `strings.Trim(s, "\x22")`: strip leading and trailing double quotes. -/
def trimQuotes (s : String) : String :=
  let l := s.toList.dropWhile (· == '\x22')
  String.mk ((l.reverse.dropWhile (· == '\x22')).reverse)

/-- `strings.Trim(s, "\x60")`: strip leading and trailing backquotes. -/
def trimBackquotes (s : String) : String :=
  let l := s.toList.dropWhile (· == '\x60')
  String.mk ((l.reverse.dropWhile (· == '\x60')).reverse)

/-- `strings.ToUpper(name[:1]) + name[1:]` for ASCII identifiers. -/
def capFirst (s : String) : String :=
  match s.toList with
  | [] => s
  | c :: rest => String.mk (c.toUpper :: rest)

/-- Does `pat` occur at the head of `l`? (helper for `containsSub`). -/
def headMatches : List Char → List Char → Bool
  | [], _ => true
  | _ :: _, [] => false
  | p :: ps, t :: ts => p == t && headMatches ps ts

/-- Does `pat` occur anywhere in `l`? -/
def hasSubList (pat : List Char) : List Char → Bool
  | [] => headMatches pat []
  | t :: ts => headMatches pat (t :: ts) || hasSubList pat ts

/-- `strings.Contains(s, pat)`. -/
def containsSub (s pat : String) : Bool :=
  hasSubList pat.toList s.toList

/-- Split a character list at the first occurrence of `c`
(`none` when `c` does not occur). -/
def splitAtChar (c : Char) : List Char → Option (List Char × List Char)
  | [] => none
  | d :: rest =>
    if d == c then some ([], rest)
    else
      match splitAtChar c rest with
      | some (a, b) => some (d :: a, b)
      | none => none

/-- `strings.SplitN(s, sep, 2)` for a one-character separator: either
`[s]` (no occurrence) or the text before and after the first occurrence. -/
def splitN2 (s : String) (c : Char) : List String :=
  match splitAtChar c s.toList with
  | none => [s]
  | some (a, b) => [String.mk a, String.mk b]

-- --- rule AST (package grammar) ---

/-- `grammar.MatchValue` and its recursion partners `ASTPattern` /
field lists, flattened into one inductive.  Participle's alternation
sets exactly one variant, so the Go struct of optional pointers becomes
a sum: SpreadBinding, SimpleBinding, ASTPattern (node type plus field
matches), List, Exact (string literal, still carrying its quotes, as
lexed), Wildcard. -/
inductive MatchValue where
  | wild : MatchValue
  | binding : String → MatchValue
  | spread : String → MatchValue
  | exact : String → MatchValue
  | pattern : String → List (String × MatchValue) → MatchValue
  | listPat : List MatchValue → MatchValue

/-- `grammar.ASTPattern` as used by `ContainsPred`. -/
structure ASTPat where
  nodeType : String
  fields : List (String × MatchValue)

/-- `grammar.MatchStmt`: node type, optional `in $X` scope, field matches. -/
structure MatchStmtG where
  nodeType : String
  inClause : Option String
  fields : List (String × MatchValue)

/-- `grammar.Predicate` (sum over Not/Contains/LenCheck/MemberCheck/PropCheck;
member values still carry their quotes, as lexed). -/
inductive Predicate where
  | notP : Predicate → Predicate
  | containsP : String → ASTPat → Predicate
  | lenCheckP : String → String → Int → Predicate
  | memberCheckP : String → List String → Predicate
  | propCheckP : String → String → Predicate

-- --- matcher (package matcher) ---

/-- `matcher.Match`: a matched node with its captured bindings. -/
structure Match where
  node : GoVal
  bindings : Bindings

/-- `matcher.mapFieldName`: fixed dictionary from lowercase .lift field
names to Go AST field names, defaulting to capitalising the first letter. -/
def mapFieldName (name : String) : String :=
  match name with
  | "name" => "Name"
  | "type" => "Type"
  | "recv" => "Recv"
  | "body" => "Body"
  | "params" => "Params"
  | "results" => "Results"
  | "fields" => "Fields"
  | "list" => "List"
  | "fun" => "Fun"
  | "args" => "Args"
  | "x" => "X"
  | "sel" => "Sel"
  | "tok" => "Tok"
  | "specs" => "Specs"
  | "decls" => "Decls"
  | "names" => "Names"
  | "tag" => "Tag"
  | "value" => "Value"
  | "values" => "Values"
  | "elts" => "Elts"
  | "elt" => "Elt"
  | "key" => "Key"
  | "len" => "Len"
  | "lhs" => "Lhs"
  | "rhs" => "Rhs"
  | "cond" => "Cond"
  | "init" => "Init"
  | "post" => "Post"
  | "op" => "Op"
  | _ => capFirst name

/-- Association lookup in a node's field table. -/
def lookupFld : List (String × GoVal) → String → Option GoVal
  | [], _ => none
  | (k, v) :: rest, x => if k == x then some v else lookupFld rest x

/-- `matcher.getField`: read a field of an AST node by .lift name via
the field-name dictionary.  An absent field or a nil pointer reads as
nil; non-struct values have no fields.  An identifier's `Name` field is
its name string. -/
def getField (n : GoVal) (name : String) : GoVal :=
  match n with
  | .vident _ nm => if mapFieldName name == "Name" then .vstr nm else .vnil
  | .vnode _ _ fs =>
    match lookupFld fs (mapFieldName name) with
    | none => .vnil
    | some v => v
  | _ => .vnil

/-- `matcher.nodeTypeMatches`: compare the node's dynamic type name
(without package or pointer) with the expected type name. -/
def nodeTypeMatches (v : GoVal) (typeName : String) : Bool :=
  match v with
  | .vident _ _ => typeName == "Ident"
  | .vnode _ k _ => k == typeName
  | _ => false

/-- `matcher.matchExact`: an identifier matches by name, a string by
value; anything else fails. -/
def matchExact (v : GoVal) (expected : String) : Bool :=
  match v with
  | .vident _ nm => nm == expected
  | .vstr s => s == expected
  | _ => false

/-- `matcher.toNode`: the `ast.Node` values of the embedding are
identifiers and nodes (the Go source's `*ast.FieldList` special case is
subsumed: a FieldList is itself a node). -/
def toNode (v : GoVal) : Option GoVal :=
  match v with
  | .vident i n => some (.vident i n)
  | .vnode i k fs => some (.vnode i k fs)
  | _ => none

/-- `matcher.toSlice`: a `*ast.FieldList` contributes its `List` field
(nil list gives nil), a slice its elements; everything else is not
list-like. -/
def toSlice (v : GoVal) : Option (List GoVal) :=
  match v with
  | .vnode _ "FieldList" fs =>
    match lookupFld fs "List" with
    | some (.vlist xs) => some xs
    | _ => none
  | .vlist xs => some xs
  | _ => none

/-- Is the value Go `nil`? -/
def isNilV : GoVal → Bool
  | .vnil => true
  | _ => false

/-- Is the pattern the wildcard `_`? -/
def isWildPat : MatchValue → Bool
  | .wild => true
  | _ => false

mutual
/-- `matcher.matchValue`: match a field value against a `MatchValue`
pattern, threading the bindings map.  `none` models returning false
(the Go code mutates a map that the caller then discards, so
state-passing with failure is observationally identical).  Note: a
simple binding or spread always captures, with no equality or
container check. -/
def matchValue (value : GoVal) (pat : MatchValue) (b : Bindings) : Option Bindings :=
  match pat with
  | .wild => some b
  | .binding x => some (insertB b x value)
  | .spread x => some (insertB b x value)
  | .exact s => if matchExact value (trimQuotes s) then some b else none
  | .pattern t fs =>
    -- matcher.matchASTPattern, inlined: unwrap to a node, compare the
    -- node type, then match the pattern's fields
    match toNode value with
    | none => none
    | some nd => if nodeTypeMatches nd t then matchFields nd fs b else none
  | .listPat ps =>
    -- matcher.matchList, inlined length check then positional matching
    match toSlice value with
    | none => none
    | some items =>
      if ps.length == items.length then matchList items ps b else none

/-- `matcher.matchFields`: match every field constraint in order; the
per-field logic is `matcher.matchField` (also available standalone
below): an absent (nil) field fails unless the pattern is a wildcard, a
simple binding (which binds nil), or a spread (which succeeds — without
binding anything). -/
def matchFields (n : GoVal) (fs : List (String × MatchValue)) (b : Bindings) : Option Bindings :=
  match fs with
  | [] => some b
  | (name, pv) :: rest =>
    let fieldValue := getField n name
    let step : Option Bindings :=
      if isNilV fieldValue && !(isWildPat pv) then
        match pv with
        | .binding x => some (insertB b x .vnil)
        | .spread _ => some b
        | _ => none
      else matchValue fieldValue pv b
    match step with
    | none => none
    | some b2 => matchFields n rest b2

/-- `matcher.matchList` body: positional matching of list elements. -/
def matchList (items : List GoVal) (ps : List MatchValue) (b : Bindings) : Option Bindings :=
  match ps, items with
  | [], _ => some b
  | p :: ps', item :: items' =>
    match matchValue item p b with
    | none => none
    | some b2 => matchList items' ps' b2
  | _ :: _, [] => none
end

/-- `matcher.matchField`: one field constraint against a node
(standalone form of the per-field step inside `matchFields`). -/
def matchField (n : GoVal) (name : String) (pv : MatchValue) (b : Bindings) : Option Bindings :=
  let fieldValue := getField n name
  if isNilV fieldValue && !(isWildPat pv) then
    match pv with
    | .binding x => some (insertB b x .vnil)
    | .spread _ => some b
    | _ => none
  else matchValue fieldValue pv b

/-- `matcher.matchASTPattern` (standalone form; inlined in `matchValue`). -/
def matchASTPattern (value : GoVal) (pat : ASTPat) (b : Bindings) : Option Bindings :=
  match toNode value with
  | none => none
  | some nd => if nodeTypeMatches nd pat.nodeType then matchFields nd pat.fields b else none

/-- `matcher.matchStmt`: visit every node of the scope in pre-order;
where the node type matches, try the field constraints starting from a
copy of the inherited bindings.  The empty list plays Go's nil inherited
map. -/
def matchStmt (stmt : MatchStmtG) (scope : GoVal) (inherited : Bindings) : List Match :=
  (preorder scope).filterMap (fun n =>
    if nodeTypeMatches n stmt.nodeType then
      match matchFields n stmt.fields inherited with
      | some b => some ⟨n, b⟩
      | none => none
    else none)

/-- Right-biased merge of two bindings maps (the Go loop copying `b`'s
entries over a copy of `a`). -/
def mergeRight (a b : Bindings) : Bindings :=
  b.foldl (fun acc kv => insertB acc kv.1 kv.2) a

/-- `matcher.crossJoin`, exactly as in the source: if either side is
empty the OTHER side is returned; otherwise every pair is merged
right-biased, keeping the left match's node. -/
def crossJoin (a b : List Match) : List Match :=
  if a.isEmpty then b
  else if b.isEmpty then a
  else a.flatMap (fun ma => b.map (fun mb => ⟨ma.node, mergeRight ma.bindings mb.bindings⟩))

/-- Modelled from the spec's words for comparison with `crossJoin`
("Result is the cross-join A × B, with bindings merged right-biased on
name collision"): the plain Cartesian product, empty whenever either
side is empty. -/
def crossJoinSpec (a b : List Match) : List Match :=
  a.flatMap (fun ma => b.map (fun mb => ⟨ma.node, mergeRight ma.bindings mb.bindings⟩))

/-- One step of `matcher.MatchBlock`'s loop over matchers 2..k: without
an `in` clause, cross-join with the matcher's whole-file matches; with
`in $X`, run the matcher inside each match's captured node for `X`
(matches whose `X` is absent or not a node are dropped). -/
def matchBlockStep (file : GoVal) (ms : List Match) (stmt : MatchStmtG) : List Match :=
  match stmt.inClause with
  | none => crossJoin ms (matchStmt stmt file [])
  | some x =>
    ms.flatMap (fun m =>
      match lookupB m.bindings x with
      | some scope =>
        match toNode scope with
        | some scopeNode => matchStmt stmt scopeNode m.bindings
        | none => []
      | none => [])

/-- `matcher.MatchBlock`: run the first matcher against the whole file,
then fold the remaining matchers with `matchBlockStep`.  A block with no
matchers yields no matches. -/
def MatchBlock (file : GoVal) (matchers : List MatchStmtG) : List Match :=
  match matchers with
  | [] => []
  | first :: rest => rest.foldl (matchBlockStep file) (matchStmt first file [])

-- --- predicate evaluation (package matcher) ---

/-- `matcher.evalContains`: look the binding up, require it to be an
`ast.Node`, then scan its subtree in pre-order for a node whose kind
matches and whose fields unify into a fresh throwaway bindings map (the
Go loop short-circuits on the first hit; existence is unchanged). -/
def evalContains (bindingName : String) (pat : ASTPat) (b : Bindings) : Bool :=
  match lookupB b bindingName with
  | none => false
  | some scope =>
    match toNode scope with
    | none => false
    | some scopeNode =>
      (preorder scopeNode).any (fun n =>
        nodeTypeMatches n pat.nodeType && (matchFields n pat.fields []).isSome)

/-- `matcher.getLength`: element count of a list-like value (a
FieldList with nil `List` counts 0; non-lists count 0). -/
def getLength (v : GoVal) : Int :=
  match v with
  | .vnode _ "FieldList" fs =>
    match lookupFld fs "List" with
    | some (.vlist xs) => (xs.length : Int)
    | _ => 0
  | .vlist xs => (xs.length : Int)
  | _ => 0

/-- `matcher.evalLenCheck`. -/
def evalLenCheck (bindingName : String) (op : String) (value : Int) (b : Bindings) : Bool :=
  match lookupB b bindingName with
  | none => false
  | some val =>
    let length := getLength val
    match op with
    | ">" => decide (length > value)
    | ">=" => decide (length ≥ value)
    | "<" => decide (length < value)
    | "<=" => decide (length ≤ value)
    | "==" => length == value
    | "!=" => length != value
    | _ => false

/-- `matcher.evalMemberCheck`: stringify the binding (identifier name or
string; anything else fails) and test membership in the quoted set. -/
def evalMemberCheck (bindingName : String) (vals : List String) (b : Bindings) : Bool :=
  match lookupB b bindingName with
  | none => false
  | some val =>
    match val with
    | .vident _ nm => vals.any (fun m => trimQuotes m == nm)
    | .vstr s => vals.any (fun m => trimQuotes m == s)
    | _ => false

/-- `matcher.isExported`: first character is an uppercase ASCII letter. -/
def isExported (v : GoVal) : Bool :=
  match v with
  | .vident _ nm =>
    match nm.toList with
    | [] => false
    | c :: _ => decide ('A' ≤ c) && decide (c ≤ 'Z')
  | .vstr s =>
    match s.toList with
    | [] => false
    | c :: _ => decide ('A' ≤ c) && decide (c ≤ 'Z')
  | _ => false

/-- `matcher.evalPropCheck`. -/
def evalPropCheck (bindingName : String) (prop : String) (b : Bindings) : Bool :=
  match lookupB b bindingName with
  | none => false
  | some val =>
    match prop with
    | "exported" => isExported val
    | "pointer" => match val with | .vnode _ "StarExpr" _ => true | _ => false
    | "slice" => match val with | .vnode _ "ArrayType" _ => true | _ => false
    | "map" => match val with | .vnode _ "MapType" _ => true | _ => false
    | "error" => match val with | .vident _ nm => nm == "error" | _ => false
    | _ => false

/-- `matcher.EvalPredicate`: dispatch in the Go source's order. -/
def EvalPredicate : Predicate → Bindings → Bool
  | .notP p, b => !(EvalPredicate p b)
  | .containsP x pat, b => evalContains x pat b
  | .lenCheckP x op v, b => evalLenCheck x op v b
  | .memberCheckP x vals, b => evalMemberCheck x vals b
  | .propCheckP x prop, b => evalPropCheck x prop b

-- --- rule AST, action side (package grammar) ---

/-- `grammar.Expr` (used in set statements): a binding reference (only
its name matters to the executor), a string literal (with quotes, as
lexed), or an integer. -/
inductive ExprG where
  | bindingE : String → ExprG
  | strE : String → ExprG
  | numE : Int → ExprG

/-- `grammar.SetStmt`: `set $Binding.seg1.seg2 = value`. -/
structure SetStmtG where
  binding : String
  segments : List String
  value : ExprG

/-- `grammar.PatchStmt` (sum over ConditionalPatch/Set/Rename/Retype;
rename and retype carry the binding name and the quoted literal). -/
inductive PatchStmtG where
  | ifP : Predicate → List PatchStmtG → PatchStmtG
  | setP : SetStmtG → PatchStmtG
  | renameP : String → String → PatchStmtG
  | retypeP : String → String → PatchStmtG

/-- `grammar.DeleteStmt`: `remove $Binding.path`. -/
structure DeleteStmtG where
  binding : String
  segments : List String

/-- `grammar.InsertClause`: mode (`ast` or `code`), the position's kind
and optional target binding, and the optional payloads (the AST build
payload is never consulted by the executor, so it is collapsed to a
unit; the code payload keeps its backquotes as lexed). -/
structure InsertClauseG where
  mode : String
  posKind : String
  posBinding : Option String
  astNode : Option Unit
  code : Option String

/-- `grammar.EmitClause` (the AST body payload is never consulted by the
executor and collapses to a unit; file, code and template text keep
their quotes/backquotes as lexed). -/
structure EmitClauseG where
  target : String
  file : String
  pkgName : Option String
  astBody : Option Unit
  codeBody : Option String
  template : Option String

/-- `grammar.Action`: a struct of four optional clauses.  The parser
sets exactly one, but the executor tests each in turn, so all four
options are kept. -/
structure ActionG where
  patch : Option (List PatchStmtG)
  delete : Option (List DeleteStmtG)
  insert : Option InsertClauseG
  emit : Option EmitClauseG

/-- `grammar.LiftBlock` (name, from-clause matchers, where clauses,
actions).  A nil from-clause and an empty matcher list coincide here. -/
structure LiftBlockG where
  name : String
  fromMatchers : List MatchStmtG
  whereClauses : List (List Predicate)
  actions : List ActionG

-- --- executor state (package executor) ---

/-- A spec inside a `GenDecl`: an import spec carrying its quoted path
literal, or some other spec kind. -/
inductive SpecG where
  | importSpec : String → SpecG
  | otherSpec : SpecG

/-- Go declaration as the import reconciliation sees it: a `GenDecl`
with token, `Lparen`/`Rparen` (0 for unset), and specs, or any other
declaration (tagged to keep declarations distinguishable). -/
inductive DeclG where
  | genDecl : String → Nat → Nat → List SpecG → DeclG
  | otherDecl : Nat → DeclG

/-- One in-place write the executor performs on the shared syntax tree
through a binding pointer: renaming an identifier, prepending a field to
a `FieldList`, or splicing statements at the front/back of a
`BlockStmt`'s list.  The executor's tree mutations are recorded as this
log. -/
inductive MutEntry where
  | renameIdent : Nat → String → MutEntry
  | prependField : Nat → GoVal → MutEntry
  | insertStmts : Nat → Bool → List GoVal → MutEntry

/-- `executor.Executor`'s mutable state: the import-to-add set
(`e.imports`, a `map[string]bool` viewed as a set in insertion order),
the file's top-level declarations (`e.file.Decls`), and the mutation
log of in-place tree writes. -/
structure ExecSt where
  imports : List String
  decls : List DeclG
  mutLog : List MutEntry

/-- Boolean membership in a string list (a Go map-key lookup). -/
def memStr : List String → String → Bool
  | [], _ => false
  | y :: rest, x => y == x || memStr rest x

/-- Set insertion for the import-to-add set. -/
def insertSet (l : List String) (x : String) : List String :=
  if memStr l x then l else l ++ [x]

/-- `e.imports[p] = true`. -/
def addImport (S : ExecSt) (p : String) : ExecSt :=
  { S with imports := insertSet S.imports p }

/-- Record one in-place tree write. -/
def logMut (S : ExecSt) (m : MutEntry) : ExecSt :=
  { S with mutLog := S.mutLog ++ [m] }

-- --- import reconciliation (executor.addImports) ---

def isImportDecl : DeclG → Bool
  | .genDecl tok _ _ _ => tok == "import"
  | _ => false

/-- Path of an import spec, quotes stripped (non-import specs are
skipped when collecting existing imports). -/
def specPath : SpecG → Option String
  | .importSpec pv => some (trimQuotes pv)
  | .otherSpec => none

/-- `fmt.Sprintf` of a quoted import path. -/
def quoteStr (s : String) : String := "\x22" ++ s ++ "\x22"

/-- The common tail of `executor.addImports` applied to the found (or
freshly created) import declaration: collect existing paths, append the
missing ones as new import specs, and force parentheses when more than
one spec results. -/
def updateImportDecl (imps : List String) : DeclG → DeclG
  | .genDecl tok lp rp specs =>
    let existing := specs.filterMap specPath
    let toAdd := imps.filter (fun imp => !(memStr existing imp))
    let specs2 : List SpecG := specs ++ toAdd.map (fun imp => .importSpec (quoteStr imp))
    if specs2.length > 1 then .genDecl tok 1 1 specs2
    else .genDecl tok lp rp specs2
  | d => d

/-- Apply `updateImportDecl` to the first import declaration (the Go
loop breaks at the first `GenDecl` with the IMPORT token and mutates it
through the retained pointer). -/
def updateFirstImport (imps : List String) : List DeclG → List DeclG
  | [] => []
  | d :: rest =>
    if isImportDecl d then updateImportDecl imps d :: rest
    else d :: updateFirstImport imps rest

/-- `executor.addImports`: no-op for an empty import-to-add set;
otherwise update the first import declaration, creating and prepending a
parenthesized one when none exists. -/
def addImports (imps : List String) (decls : List DeclG) : List DeclG :=
  if imps.isEmpty then decls
  else if decls.any isImportDecl then updateFirstImport imps decls
  else updateImportDecl imps (.genDecl "import" 1 1 []) :: decls

-- --- template engine (executor.interpolate and helpers) ---

/-- `executor.parseTypeExpr`: a dotted name becomes a selector over two
identifiers, anything else a bare identifier (freshly built nodes get
pointer id 0). -/
def parseTypeExpr (typeStr : String) : GoVal :=
  if containsSub typeStr "." then
    match splitN2 typeStr '.' with
    | [x, sel] => .vnode 0 "SelectorExpr" [("X", .vident 0 x), ("Sel", .vident 0 sel)]
    | _ => .vident 0 typeStr
  else .vident 0 typeStr

/-- `fmt.Sprintf("%v", v)` fallback of `bindingToString` for values that
are neither identifiers, strings, nor basic literals.  The Go rendering
of a pointer depends on addresses and positions; no claim depends on its
exact text, only on it being emitted verbatim, so it is modelled as a
fixed placeholder (Go prints nil as `<nil>`). -/
def goDefaultRepr : GoVal → String
  | .vnil => "<nil>"
  | _ => "<value>"

/-- `executor.bindingToString`: identifier name, string itself, basic
literal's `Value`, else the `%v` fallback. -/
def bindingToString (v : GoVal) : String :=
  match v with
  | .vident _ nm => nm
  | .vstr s => s
  | .vnode _ "BasicLit" fs =>
    match lookupFld fs "Value" with
    | some (.vstr s) => s
    | _ => goDefaultRepr v
  | _ => goDefaultRepr v

/-- Helper of `toSnakeCase`: insert an underscore before each interior
uppercase ASCII letter. -/
def snakeGo : Bool → List Char → List Char
  | _, [] => []
  | isFirst, c :: rest =>
    (if !isFirst && decide ('A' ≤ c) && decide (c ≤ 'Z') then ['_', c] else [c]) ++
      snakeGo false rest

/-- `executor.toSnakeCase` (ASCII case conversion, as the rule corpus
only contains ASCII identifiers). -/
def toSnakeCase (s : String) : String :=
  String.mk ((snakeGo true s.toList).map Char.toLower)

/-- `executor.toCamelCase`: split on underscores, capitalize every
segment after the first, concatenate. -/
def toCamelCase (s : String) : String :=
  match s.splitOn "_" with
  | [] => ""
  | first :: rest => String.join (first :: rest.map capFirst)

/-- `executor.applyTransform`. -/
def applyTransform (s t : String) : String :=
  match t with
  | "snake_case" => toSnakeCase s
  | "lower" => s.toLower
  | "upper" => s.toUpper
  | "camel_case" => toCamelCase s
  | _ => s

/-- Word character of Go's regexp `\w` (ASCII). -/
def isWordChar (c : Char) : Bool :=
  (decide ('a' ≤ c) && decide (c ≤ 'z')) || (decide ('A' ≤ c) && decide (c ≤ 'Z')) ||
    (decide ('0' ≤ c) && decide (c ≤ '9')) || c == '_'

/-- Whitespace of Go's regexp `\s`. -/
def isSpaceChar (c : Char) : Bool :=
  c == ' ' || c == '\t' || c == '\n' || c == '\x0c' || c == '\r'

/-- Close of an interpolation-pattern match without the transform group:
the name must be followed directly by the closing brace.  Returns
(name, empty transform, matched text, remainder). -/
def plainClose (cs name afterName : List Char) :
    Option (String × String × List Char × List Char) :=
  match afterName with
  | c :: rem =>
    if c == '\x7d' then some (String.mk name, "", cs.take (cs.length - rem.length), rem)
    else none
  | [] => none

/-- One attempted match of the interpolation pattern (the Go regexp with
a dollar-brace opener, `\w+` name, optional spaced `|`-transform, brace
closer) at the head of `cs`.  Mirrors the regexp's preference for the
transform group, falling back to the plain close.  Returns
(name, transform, matched text, remainder after the match). -/
def parseInterpTok (cs : List Char) : Option (String × String × List Char × List Char) :=
  match cs with
  | c1 :: c2 :: rest =>
    if c1 == '$' && c2 == '\x7b' then
      let name := rest.takeWhile isWordChar
      let afterName := rest.dropWhile isWordChar
      if name.isEmpty then none
      else
        match afterName.dropWhile isSpaceChar with
        | c3 :: afterBar =>
          if c3 == '|' then
            let sp2 := afterBar.dropWhile isSpaceChar
            let tr := sp2.takeWhile isWordChar
            let afterTr := sp2.dropWhile isWordChar
            if tr.isEmpty then plainClose cs name afterName
            else
              match afterTr with
              | c4 :: rem =>
                if c4 == '\x7d' then
                  some (String.mk name, String.mk tr, cs.take (cs.length - rem.length), rem)
                else plainClose cs name afterName
              | [] => plainClose cs name afterName
          else plainClose cs name afterName
        | [] => plainClose cs name afterName
    else none
  | _ => none

theorem dropWhile_length_le (p : Char → Bool) (l : List Char) :
    (l.dropWhile p).length ≤ l.length := by
  induction l with
  | nil => simp
  | cons c rest ih =>
    by_cases h : p c
    · simp only [List.dropWhile_cons, h, if_true]
      exact Nat.le_succ_of_le ih
    · simp [List.dropWhile_cons, h]

theorem plainClose_rem_lt (cs name afterName : List Char) (nm tr : String)
    (matched rem : List Char)
    (h : plainClose cs name afterName = some (nm, tr, matched, rem)) :
    rem.length < afterName.length := by
  match afterName, h with
  | c :: rem', h =>
    simp only [plainClose] at h
    by_cases hc : c == '\x7d'
    · simp only [hc, if_true, Option.some.injEq] at h
      obtain ⟨-, -, -, rfl⟩ := h
      simp
    · simp [hc] at h

theorem parseInterpTok_rem_lt (cs : List Char) (nm tr : String) (matched rem : List Char)
    (h : parseInterpTok cs = some (nm, tr, matched, rem)) :
    rem.length < cs.length := by
  match cs, h with
  | c1 :: c2 :: rest, h =>
    simp only [parseInterpTok] at h
    by_cases h12 : c1 == '$' && c2 == '\x7b'
    · simp only [h12, if_true] at h
      by_cases hname : (rest.takeWhile isWordChar).isEmpty
      · simp [hname] at h
      · simp only [hname, if_false] at h
        have hAfter : (rest.dropWhile isWordChar).length ≤ rest.length :=
          dropWhile_length_le _ _
        have hplain :
            ∀ (h' : plainClose (c1 :: c2 :: rest) (rest.takeWhile isWordChar)
                (rest.dropWhile isWordChar) = some (nm, tr, matched, rem)),
              rem.length < (c1 :: c2 :: rest).length := by
          intro h'
          have := plainClose_rem_lt _ _ _ _ _ _ _ h'
          simp only [List.length_cons]
          omega
        rcases hsp : (rest.dropWhile isWordChar).dropWhile isSpaceChar with _ | ⟨c3, afterBar⟩
        · rw [hsp] at h
          exact hplain h
        · rw [hsp] at h
          have hBar : afterBar.length < rest.length := by
            have h1 : (c3 :: afterBar).length ≤ (rest.dropWhile isWordChar).length := by
              rw [← hsp]; exact dropWhile_length_le _ _
            simp only [List.length_cons] at h1
            omega
          by_cases hc3 : c3 == '|'
          · simp only [hc3, if_true] at h
            by_cases htr : ((afterBar.dropWhile isSpaceChar).takeWhile isWordChar).isEmpty
            · simp only [htr, if_true] at h
              exact hplain h
            · simp only [htr, if_false] at h
              rcases hat : (afterBar.dropWhile isSpaceChar).dropWhile isWordChar
                with _ | ⟨c4, remTail⟩
              · rw [hat] at h
                exact hplain h
              · rw [hat] at h
                by_cases hc4 : c4 == '\x7d'
                · simp only [hc4, if_true, Option.some.injEq] at h
                  obtain ⟨-, -, -, rfl⟩ := h
                  have h1 : (c4 :: rem).length ≤ (afterBar.dropWhile isSpaceChar).length := by
                    rw [← hat]; exact dropWhile_length_le _ _
                  have h2 : (afterBar.dropWhile isSpaceChar).length ≤ afterBar.length :=
                    dropWhile_length_le _ _
                  simp only [List.length_cons] at h1 ⊢
                  omega
                · simp only [hc4, if_false] at h
                  exact hplain h
          · simp only [hc3, if_false] at h
            exact hplain h
    · simp [h12] at h

/-- `executor.interpolate`'s scan over the text: at each position try
the pattern; on a match emit the replacement (the matched text itself
when the name is unbound — "leave unchanged if not found") and continue
after the match; otherwise emit the character and move one forward.
`regexp.ReplaceAllStringFunc` never rescans emitted replacement text. -/
def interpChars (b : Bindings) (cs : List Char) : List Char :=
  match cs with
  | [] => []
  | c :: rest =>
    match h : parseInterpTok (c :: rest) with
    | some (name, tr, matched, rem) =>
      (match lookupB b name with
       | none => matched
       | some v =>
         let s0 := bindingToString v
         (if tr == "" then s0 else applyTransform s0 tr).toList)
      ++ interpChars b rem
    | none => c :: interpChars b rest
termination_by cs.length
decreasing_by
  · exact parseInterpTok_rem_lt _ _ _ _ _ h
  · simp

/-- `executor.interpolate`: replace the interpolation patterns in a
single left-to-right pass. -/
def interpolate (text : String) (b : Bindings) : String :=
  String.mk (interpChars b text.toList)

-- --- action execution (package executor) ---

/-- `executor.executeSet`: only the one-segment path `first` on a
FieldList binding is supported.  The quoted value splits on the first
space into name and type; a new field is synthesized and prepended (an
in-place write, recorded in the log), and a type string containing
`context.` adds `context` to the import-to-add set — the only package
this statement ever infers. -/
def executeSet (st : SetStmtG) (b : Bindings) (S : ExecSt) : Except String ExecSt :=
  match lookupB b st.binding with
  | none => .error ("binding $" ++ st.binding ++ " not found")
  | some target =>
    if st.segments == ["first"] then
      match target with
      | .vnode flId "FieldList" _ =>
        match st.value with
        | .strE raw =>
          let fieldSpec := trimQuotes raw
          match splitN2 fieldSpec ' ' with
          | [nm, ty] =>
            let newField : GoVal :=
              .vnode 0 "Field" [("Names", .vlist [.vident 0 nm]), ("Type", parseTypeExpr ty)]
            let S1 := logMut S (.prependField flId newField)
            .ok (if containsSub ty "context." then addImport S1 "context" else S1)
          | _ => .error ("invalid field spec: " ++ fieldSpec)
        | _ => .error "set value must be a string"
      | _ => .error ("$" ++ st.binding ++ " is not a FieldList")
    else .error ("set path $" ++ st.binding ++ " not yet supported")

/-- `executor.executeDelete`: iterates the statements without effect and
always fails as unimplemented. -/
def executeDelete (_del : List DeleteStmtG) (_b : Bindings) (_S : ExecSt) :
    Except String ExecSt :=
  .error "delete not yet implemented"

/-- `executor.executePatchStmt`: rename (target must be an identifier;
the write is in-place and local), set, retype (unimplemented).  A
conditional patch reaching this function falls through Go's if-chain and
is a silent no-op. -/
def executePatchStmt (stmt : PatchStmtG) (b : Bindings) (S : ExecSt) : Except String ExecSt :=
  match stmt with
  | .renameP binding newName =>
    match lookupB b binding with
    | none => .error ("binding $" ++ binding ++ " not found")
    | some target =>
      match target with
      | .vident i _ => .ok (logMut S (.renameIdent i (trimQuotes newName)))
      | _ => .error ("$" ++ binding ++ " is not an identifier")
  | .setP st => executeSet st b S
  | .retypeP _ _ => .error "retype not yet implemented"
  | .ifP _ _ => .ok S

/-- The inner loop of `executor.executePatch` over a conditional patch's
nested statements: each is dispatched through `executePatchStmt`. -/
def executePatchSeq : List PatchStmtG → Bindings → ExecSt → Except String ExecSt
  | [], _, S => .ok S
  | st :: rest, b, S =>
    match executePatchStmt st b S with
    | .error e => .error e
    | .ok S' => executePatchSeq rest b S'

/-- `executor.executePatch`: statements in order; a conditional patch
evaluates its predicate against the bindings and applies the nested
statements only when it holds. -/
def executePatch : List PatchStmtG → Bindings → ExecSt → Except String ExecSt
  | [], _, S => .ok S
  | .ifP cond nested :: rest, b, S =>
    if EvalPredicate cond b then
      match executePatchSeq nested b S with
      | .error e => .error e
      | .ok S' => executePatch rest b S'
    else executePatch rest b S
  | st :: rest, b, S =>
    match executePatchStmt st b S with
    | .error e => .error e
    | .ok S' => executePatch rest b S'

/-- `executor.executeInsert`.  The Go frontend's statement parser
(`parseStatements`, wrapping the text in a synthetic function and
handing it to `go/parser`) is an external collaborator passed in as
`pf`.  Mode must be `code`, the target a BlockStmt; the payload is
trimmed, interpolated, scanned for the `context.`/`time.` import
triggers, parsed, and spliced in front of or behind the block's
statement list (an in-place write, recorded in the log). -/
def executeInsert (pf : String → Except String (List GoVal)) (ins : InsertClauseG)
    (b : Bindings) (S : ExecSt) : Except String ExecSt :=
  if ins.mode != "code" then .error ("insert mode " ++ ins.mode ++ " not yet supported")
  else
    match ins.code with
    | none => .error "insert code requires code block"
    | some codeRaw =>
      match ins.posBinding with
      | none => .error "insert requires target binding"
      | some targetName =>
        match lookupB b targetName with
        | none => .error ("binding $" ++ targetName ++ " not found")
        | some target =>
          match target with
          | .vnode blockId "BlockStmt" _ =>
            let codeText := interpolate (trimBackquotes codeRaw) b
            let S1 := if containsSub codeText "context." then addImport S "context" else S
            let S2 := if containsSub codeText "time." then addImport S1 "time" else S1
            match pf codeText with
            | .error e => .error ("parse insert code: " ++ e)
            | .ok stmts =>
              if ins.posKind == "prepend" then
                .ok (logMut S2 (.insertStmts blockId true stmts))
              else if ins.posKind == "append" then
                .ok (logMut S2 (.insertStmts blockId false stmts))
              else .error ("insert position " ++ ins.posKind ++ " not yet supported")
          | _ => .error ("$" ++ targetName ++ " is not a BlockStmt")

/-- `executor.executeEmit`: template body is trimmed and interpolated;
code body likewise, with an optional package-clause line; AST body is
unimplemented; no body at all yields empty content. -/
def executeEmit (em : EmitClauseG) (b : Bindings) : Except String String :=
  match em.template with
  | some t => .ok (interpolate (trimBackquotes t) b)
  | none =>
    match em.codeBody with
    | some t =>
      let content := interpolate (trimBackquotes t) b
      match em.pkgName with
      | some p => .ok ("package " ++ p ++ "\n\n" ++ content)
      | none => .ok content
    | none =>
      match em.astBody with
      | some _ => .error "emit ast mode not yet implemented"
      | none => .ok ""

/-- Go map write `result.EmittedFiles[k] = v` on the assoc-list model:
replace the existing entry or append. -/
def updateAssoc (l : List (String × String)) (k v : String) : List (String × String) :=
  match l with
  | [] => [(k, v)]
  | (k', v') :: rest => if k' == k then (k', v) :: rest else (k', v') :: updateAssoc rest k v

/-- `executor.Result`. -/
structure Result where
  ModifiedSource : String
  EmittedFiles : List (String × String)
  Applied : List String

/-- The body of `executor.Execute`'s inner loop for one action × one
match: each of the four optional clauses is tested in the source's order
(insert, patch, delete, emit); a clause error aborts with the source's
wrapping message, a success appends to the `Applied` log (and, for emit,
stores the file under its trimmed name, overwriting). -/
def applyActionToMatch (pf : String → Except String (List GoVal)) (a : ActionG) (b : Bindings)
    (acc : ExecSt × List (String × String) × List String) :
    Except String (ExecSt × List (String × String) × List String) :=
  let (S, emitted, applied) := acc
  let step1 : Except String (ExecSt × List String) :=
    match a.insert with
    | some ins =>
      match executeInsert pf ins b S with
      | .error e => .error ("insert failed: " ++ e)
      | .ok S' => .ok (S', applied ++ ["insert"])
    | none => .ok (S, applied)
  match step1 with
  | .error e => .error e
  | .ok (S1, ap1) =>
    let step2 : Except String (ExecSt × List String) :=
      match a.patch with
      | some stmts =>
        match executePatch stmts b S1 with
        | .error e => .error ("patch failed: " ++ e)
        | .ok S' => .ok (S', ap1 ++ ["patch"])
      | none => .ok (S1, ap1)
    match step2 with
    | .error e => .error e
    | .ok (S2, ap2) =>
      let step3 : Except String (ExecSt × List String) :=
        match a.delete with
        | some del =>
          match executeDelete del b S2 with
          | .error e => .error ("delete failed: " ++ e)
          | .ok S' => .ok (S', ap2 ++ ["delete"])
        | none => .ok (S2, ap2)
      match step3 with
      | .error e => .error e
      | .ok (S3, ap3) =>
        match a.emit with
        | some em =>
          match executeEmit em b with
          | .error e => .error ("emit failed: " ++ e)
          | .ok content =>
            let filename := trimQuotes em.file
            .ok (S3, updateAssoc emitted filename content, ap3 ++ ["emit:" ++ filename])
        | none => .ok (S3, emitted, ap3)

/-- Inner loop of `executor.Execute`: one action over all matches, in
match order. -/
def runMatches (pf : String → Except String (List GoVal)) (a : ActionG) :
    List Match → (ExecSt × List (String × String) × List String) →
    Except String (ExecSt × List (String × String) × List String)
  | [], acc => .ok acc
  | m :: rest, acc =>
    match applyActionToMatch pf a m.bindings acc with
    | .error e => .error e
    | .ok acc' => runMatches pf a rest acc'

/-- Outer loop of `executor.Execute`: all actions, each over all
matches. -/
def runActions (pf : String → Except String (List GoVal)) :
    List ActionG → List Match → (ExecSt × List (String × String) × List String) →
    Except String (ExecSt × List (String × String) × List String)
  | [], _, acc => .ok acc
  | a :: rest, ms, acc =>
    match runMatches pf a ms acc with
    | .error e => .error e
    | .ok acc' => runActions pf rest ms acc'

/-- `executor.Execute`: run every action over every match (action-major
order); on the first error the whole call aborts with that error and no
result.  Otherwise reconcile imports into the declarations and render
the mutated file through the frontend's pretty-printer (`render`, an
external collaborator assumed total here). -/
def Execute (pf : String → Except String (List GoVal)) (render : ExecSt → String)
    (block : LiftBlockG) (ms : List Match) (S0 : ExecSt) : Except String Result :=
  match runActions pf block.actions ms (S0, [], []) with
  | .error e => .error e
  | .ok (S, emitted, applied) =>
    let S' : ExecSt := { S with decls := addImports S.imports S.decls }
    .ok ⟨render S', emitted, applied⟩

-- --- observation helpers used in statements ---

/-- The emit content `executeEmit` produces when the AST body is absent
(in which case it never fails). -/
def emitContent (em : EmitClauseG) (b : Bindings) : String :=
  match em.template with
  | some t => interpolate (trimBackquotes t) b
  | none =>
    match em.codeBody with
    | some t =>
      let content := interpolate (trimBackquotes t) b
      match em.pkgName with
      | some p => "package " ++ p ++ "\n\n" ++ content
      | none => content
    | none => ""

/-- All import paths (quotes stripped) present in a declaration list. -/
def importPaths (decls : List DeclG) : List String :=
  decls.flatMap (fun d =>
    match d with
    | .genDecl _ _ _ specs => specs.filterMap specPath
    | _ => [])

-- ---------------------------------------------------------------------
-- Theorems
-- ---------------------------------------------------------------------

-- helper lemmas ---------------------------------------------------------

mutual
theorem preorder_trans : ∀ (v : GoVal), ∀ n ∈ preorder v, ∀ m ∈ preorder n, m ∈ preorder v
  | .vnil, n, hn, _, _ => by simp [preorder] at hn
  | .vstr _, n, hn, _, _ => by simp [preorder] at hn
  | .vident i nm, n, hn, m, hm => by
    simp only [preorder, List.mem_singleton] at hn
    subst hn
    simpa [preorder] using hm
  | .vnode i k fs, n, hn, m, hm => by
    simp only [preorder, List.mem_cons] at hn
    rcases hn with rfl | hn
    · simpa [preorder] using hm
    · exact List.mem_cons_of_mem _ (preorderFlds_trans fs n hn m hm)
  | .vlist es, n, hn, m, hm => by
    simp only [preorder] at hn ⊢
    exact preorderVals_trans es n hn m hm
termination_by v _ _ _ _ => sizeOf v

theorem preorderFlds_trans :
    ∀ (fs : List (String × GoVal)), ∀ n ∈ preorderFlds fs, ∀ m ∈ preorder n, m ∈ preorderFlds fs
  | [], n, hn, _, _ => by simp [preorderFlds] at hn
  | (nm, fv) :: rest, n, hn, m, hm => by
    simp only [preorderFlds, List.mem_append] at hn ⊢
    rcases hn with hn | hn
    · exact Or.inl (preorder_trans fv n hn m hm)
    · exact Or.inr (preorderFlds_trans rest n hn m hm)
termination_by fs _ _ _ _ => sizeOf fs

theorem preorderVals_trans :
    ∀ (es : List GoVal), ∀ n ∈ preorderVals es, ∀ m ∈ preorder n, m ∈ preorderVals es
  | [], n, hn, _, _ => by simp [preorderVals] at hn
  | v :: rest, n, hn, m, hm => by
    simp only [preorderVals, List.mem_append] at hn ⊢
    rcases hn with hn | hn
    · exact Or.inl (preorder_trans v n hn m hm)
    · exact Or.inr (preorderVals_trans rest n hn m hm)
termination_by es _ _ _ _ => sizeOf es
end

mutual
theorem preorder_node : ∀ (v : GoVal), ∀ n ∈ preorder v, toNode n = some n
  | .vnil, n, hn => by simp [preorder] at hn
  | .vstr _, n, hn => by simp [preorder] at hn
  | .vident i nm, n, hn => by
    simp only [preorder, List.mem_singleton] at hn
    subst hn
    rfl
  | .vnode i k fs, n, hn => by
    simp only [preorder, List.mem_cons] at hn
    rcases hn with rfl | hn
    · rfl
    · exact preorderFlds_node fs n hn
  | .vlist es, n, hn => by
    simp only [preorder] at hn
    exact preorderVals_node es n hn
termination_by v _ _ => sizeOf v

theorem preorderFlds_node :
    ∀ (fs : List (String × GoVal)), ∀ n ∈ preorderFlds fs, toNode n = some n
  | [], n, hn => by simp [preorderFlds] at hn
  | (nm, fv) :: rest, n, hn => by
    simp only [preorderFlds, List.mem_append] at hn
    rcases hn with hn | hn
    · exact preorder_node fv n hn
    · exact preorderFlds_node rest n hn
termination_by fs _ _ => sizeOf fs

theorem preorderVals_node : ∀ (es : List GoVal), ∀ n ∈ preorderVals es, toNode n = some n
  | [], n, hn => by simp [preorderVals] at hn
  | v :: rest, n, hn => by
    simp only [preorderVals, List.mem_append] at hn
    rcases hn with hn | hn
    · exact preorder_node v n hn
    · exact preorderVals_node rest n hn
termination_by es _ _ => sizeOf es
end

theorem lookupB_insertB_self (b : Bindings) (x : String) (v : GoVal) :
    lookupB (insertB b x v) x = some v := by
  induction b with
  | nil => simp [insertB, lookupB]
  | cons p rest ih =>
    obtain ⟨k, w⟩ := p
    by_cases h : k = x
    · simp [insertB, lookupB, h]
    · simp only [insertB, lookupB, beq_iff_eq, h, if_false]
      exact ih

theorem matchFields_cons (n : GoVal) (name : String) (pv : MatchValue)
    (rest : List (String × MatchValue)) (b : Bindings) :
    matchFields n ((name, pv) :: rest) b =
      match matchField n name pv b with
      | none => none
      | some b2 => matchFields n rest b2 := by
  simp only [matchFields, matchField]

-- C1 --------------------------------------------------------------------

/-- C1: counterexample to the claim as stated.  A two-matcher block whose
first matcher matches nothing and whose second (without `in`) matches
one node: `MatchBlock` produces that one match, while the spec's
Cartesian product of the empty first result set with the second result
set is empty. -/
theorem C1_counterexample :
    MatchBlock (.vnode 0 "File" [("Decls", .vlist [.vnode 1 "FuncDecl" []])])
        [⟨"TypeSpec", none, []⟩, ⟨"FuncDecl", none, []⟩] =
      [⟨.vnode 1 "FuncDecl" [], []⟩] ∧
    crossJoinSpec []
        (matchStmt ⟨"FuncDecl", none, []⟩
          (.vnode 0 "File" [("Decls", .vlist [.vnode 1 "FuncDecl" []])]) []) = [] ∧
    ([⟨GoVal.vnode 1 "FuncDecl" [], []⟩] : List Match) ≠ [] :=
  ⟨rfl, rfl, by simp⟩

/-- C1 (amended): a no-`in` matcher step of `MatchBlock` computes
`crossJoin`, which equals the spec's Cartesian product with right-biased
binding merge whenever BOTH sides are nonempty; when either side is
empty, `crossJoin` returns the other side unchanged instead of the
empty product. -/
theorem C1_cross_join_amended (file : GoVal) (a b : List Match) (stmt : MatchStmtG)
    (h : stmt.inClause = none) :
    matchBlockStep file a stmt = crossJoin a (matchStmt stmt file []) ∧
    (a ≠ [] → b ≠ [] → crossJoin a b = crossJoinSpec a b) ∧
    crossJoin [] b = b ∧ crossJoin a [] = a := by
  refine ⟨by simp [matchBlockStep, h], ?_, by simp [crossJoin], ?_⟩
  · intro ha hb
    simp [crossJoin, crossJoinSpec, List.isEmpty_iff, ha, hb]
  · rcases a with _ | ⟨m, rest⟩
    · simp [crossJoin]
    · simp [crossJoin]

/-- C1 (amended) witness at concrete inputs. -/
theorem C1_cross_join_amended_witness :
    (⟨"FuncDecl", none, []⟩ : MatchStmtG).inClause = none ∧
    (matchBlockStep .vnil [⟨.vident 0 "n", []⟩] ⟨"FuncDecl", none, []⟩ =
        crossJoin [⟨.vident 0 "n", []⟩] (matchStmt ⟨"FuncDecl", none, []⟩ .vnil []) ∧
      ([⟨.vident 0 "n", []⟩] ≠ ([] : List Match) → [⟨.vident 1 "m", []⟩] ≠ ([] : List Match) →
        crossJoin [⟨.vident 0 "n", []⟩] [⟨.vident 1 "m", []⟩] =
          crossJoinSpec [⟨.vident 0 "n", []⟩] [⟨.vident 1 "m", []⟩]) ∧
      crossJoin [] [⟨.vident 1 "m", []⟩] = [⟨.vident 1 "m", []⟩] ∧
      crossJoin [⟨.vident 0 "n", []⟩] [] = [⟨.vident 0 "n", []⟩]) :=
  ⟨rfl, C1_cross_join_amended .vnil [⟨.vident 0 "n", []⟩] [⟨.vident 1 "m", []⟩]
    ⟨"FuncDecl", none, []⟩ rfl⟩

-- C2 --------------------------------------------------------------------

/-- C2: the code at the failing input.  Unifying `recv: $R...` against a
FuncDecl whose `Recv` is nil succeeds but leaves no key `R` in the
bindings (the result is the empty map), whereas a bare `recv: $R`
succeeds and binds `R` to nil, as the claim requires for both. -/
theorem C2_spread_absent_field_no_binding :
    matchFields (.vnode 0 "FuncDecl" [("Name", .vident 1 "Hello"), ("Recv", .vnil)])
        [("recv", .spread "R")] [] = some [] ∧
    lookupB [] "R" = none ∧
    matchFields (.vnode 0 "FuncDecl" [("Name", .vident 1 "Hello"), ("Recv", .vnil)])
        [("recv", .binding "R")] [] = some [("R", .vnil)] :=
  ⟨rfl, rfl, rfl⟩

-- C3 --------------------------------------------------------------------

/-- C3: counterexample.  `$X` is already bound to the identifier named
`a` with pointer id 1; unifying the same `$X` against the different
identifier named `b` with pointer id 2 nevertheless succeeds, silently
overwriting the binding — the claimed equality requirement does not
exist in the code. -/
theorem C3_counterexample :
    matchValue (.vident 2 "b") (.binding "X") [("X", .vident 1 "a")] =
      some [("X", .vident 2 "b")] ∧
    (2 : Nat) ≠ 1 ∧ ("b" : String) ≠ "a" :=
  ⟨rfl, by decide, by decide⟩

/-- C3 (amended): unifying a simple binding `$X` against a present field
value always succeeds and overwrites any previous binding for `X`; no
equality check is performed. -/
theorem C3_rebinding_overwrites (v : GoVal) (x : String) (b : Bindings) :
    matchValue v (.binding x) b = some (insertB b x v) := rfl

-- C4 --------------------------------------------------------------------

/-- C4: counterexample.  A spread `$A...` unified against a plain
identifier (not list-like, not nil) succeeds and captures it, although
the claim requires failure. -/
theorem C4_counterexample :
    matchValue (.vident 1 "x") (.spread "A") [] = some [("A", .vident 1 "x")] ∧
    toSlice (.vident 1 "x") = none ∧
    isNilV (.vident 1 "x") = false :=
  ⟨rfl, rfl, rfl⟩

/-- C4 (amended): unifying a spread binding `$X...` against a present
field value always succeeds and captures the value as-is; no list-like
check is performed during unification. -/
theorem C4_spread_captures_any_value (v : GoVal) (x : String) (b : Bindings) :
    matchValue v (.spread x) b = some (insertB b x v) := rfl

-- C7 --------------------------------------------------------------------

/-- C7: `Contains` is monotonic in its scope.  If the predicate holds
with the binding mapped to a node `n` lying inside the subtree of a node
`n'`, it also holds with the binding mapped to `n'`. -/
theorem C7_contains_monotonic (pat : ASTPat) (x : String) (b : Bindings) (n n' : GoVal)
    (hsub : n ∈ preorder n') (hnode : toNode n' = some n')
    (h : evalContains x pat (insertB b x n) = true) :
    evalContains x pat (insertB b x n') = true := by
  have hn : toNode n = some n := preorder_node n' n hsub
  simp only [evalContains, lookupB_insertB_self, hn] at h
  simp only [evalContains, lookupB_insertB_self, hnode]
  rw [List.any_eq_true] at h ⊢
  obtain ⟨nd, hnd, hf⟩ := h
  exact ⟨nd, preorder_trans n' n hsub nd hnd, hf⟩

/-- C7 witness: a CallExpr-containing block inside a FuncDecl: the
predicate holds on the block and therefore on the whole declaration. -/
theorem C7_contains_monotonic_witness :
    GoVal.vnode 1 "BlockStmt" [("List", .vlist [.vnode 2 "CallExpr" []])] ∈
        preorder (.vnode 0 "FuncDecl"
          [("Body", .vnode 1 "BlockStmt" [("List", .vlist [.vnode 2 "CallExpr" []])])]) ∧
    toNode (GoVal.vnode 0 "FuncDecl"
        [("Body", .vnode 1 "BlockStmt" [("List", .vlist [.vnode 2 "CallExpr" []])])]) =
      some (.vnode 0 "FuncDecl"
        [("Body", .vnode 1 "BlockStmt" [("List", .vlist [.vnode 2 "CallExpr" []])])]) ∧
    evalContains "B" ⟨"CallExpr", []⟩
        (insertB [] "B" (.vnode 1 "BlockStmt" [("List", .vlist [.vnode 2 "CallExpr" []])])) =
      true ∧
    evalContains "B" ⟨"CallExpr", []⟩
        (insertB [] "B" (.vnode 0 "FuncDecl"
          [("Body", .vnode 1 "BlockStmt" [("List", .vlist [.vnode 2 "CallExpr" []])])])) =
      true :=
  ⟨by simp [preorder, preorderFlds, preorderVals], rfl, rfl,
    C7_contains_monotonic ⟨"CallExpr", []⟩ "B" []
      (.vnode 1 "BlockStmt" [("List", .vlist [.vnode 2 "CallExpr" []])])
      (.vnode 0 "FuncDecl"
        [("Body", .vnode 1 "BlockStmt" [("List", .vlist [.vnode 2 "CallExpr" []])])])
      (by simp [preorder, preorderFlds, preorderVals]) rfl rfl⟩

-- C5 --------------------------------------------------------------------

theorem applyActionToMatch_delete_err (pf : String → Except String (List GoVal))
    (a : ActionG) (b : Bindings) (S : ExecSt) (em : List (String × String)) (ap : List String)
    (hd : a.delete ≠ none) :
    ∃ e, applyActionToMatch pf a b (S, em, ap) = .error e := by
  rcases hdel : a.delete with _ | d
  · exact absurd hdel hd
  · rcases hins : a.insert with _ | ins
    · rcases hp : a.patch with _ | stmts
      · exact ⟨"delete failed: delete not yet implemented",
          by simp [applyActionToMatch, hins, hp, hdel, executeDelete]⟩
      · rcases hep : executePatch stmts b S with e | S'
        · exact ⟨"patch failed: " ++ e, by simp [applyActionToMatch, hins, hp, hep]⟩
        · exact ⟨"delete failed: delete not yet implemented",
            by simp [applyActionToMatch, hins, hp, hep, hdel, executeDelete]⟩
    · rcases hei : executeInsert pf ins b S with e | S1
      · exact ⟨"insert failed: " ++ e, by simp [applyActionToMatch, hins, hei]⟩
      · rcases hp : a.patch with _ | stmts
        · exact ⟨"delete failed: delete not yet implemented",
            by simp [applyActionToMatch, hins, hei, hp, hdel, executeDelete]⟩
        · rcases hep : executePatch stmts b S1 with e | S2
          · exact ⟨"patch failed: " ++ e, by simp [applyActionToMatch, hins, hei, hp, hep]⟩
          · exact ⟨"delete failed: delete not yet implemented",
              by simp [applyActionToMatch, hins, hei, hp, hep, hdel, executeDelete]⟩

theorem runMatches_delete_err (pf : String → Except String (List GoVal)) (a : ActionG)
    (hd : a.delete ≠ none) :
    ∀ (ms : List Match) (acc : ExecSt × List (String × String) × List String),
      ms ≠ [] → ∃ e, runMatches pf a ms acc = .error e
  | [], _, h => absurd rfl h
  | m :: rest, (S, em, ap), _ => by
    obtain ⟨e, he⟩ := applyActionToMatch_delete_err pf a m.bindings S em ap hd
    exact ⟨e, by simp [runMatches, he]⟩

theorem runActions_delete_err (pf : String → Except String (List GoVal)) :
    ∀ (acts : List ActionG) (ms : List Match)
      (acc : ExecSt × List (String × String) × List String),
      (∃ a ∈ acts, a.delete ≠ none) → ms ≠ [] →
      ∃ e, runActions pf acts ms acc = .error e
  | [], _, _, ⟨a, ha, _⟩, _ => absurd ha (List.not_mem_nil a)
  | a :: rest, ms, acc, ⟨a', ha', hd⟩, hms => by
    rcases List.mem_cons.mp ha' with rfl | ha'
    · obtain ⟨e, he⟩ := runMatches_delete_err pf a' hd ms acc hms
      exact ⟨e, by simp [runActions, he]⟩
    · rcases hr : runMatches pf a ms acc with e | acc'
      · exact ⟨e, by simp [runActions, hr]⟩
      · obtain ⟨e, he⟩ := runActions_delete_err pf rest ms acc' ⟨a', ha', hd⟩ hms
        exact ⟨e, by simp [runActions, hr, he]⟩

/-- C5: counterexample.  Two actions over one match: the first (a
rename patch) succeeds and mutates the tree, the second (a delete)
fails; `Execute` aborts the whole call with the error, so no Result —
and hence no ModifiedSource reflecting the earlier mutation — is
produced. -/
theorem C5_counterexample :
    Execute (fun _ => .ok []) (fun _ => "")
        ⟨"b", [], [],
          [⟨some [.renameP "N" "\x22new\x22"], none, none, none⟩,
           ⟨none, some [], none, none⟩]⟩
        [⟨.vnil, [("N", .vident 5 "old")]⟩] ⟨[], [], []⟩ =
      .error "delete failed: delete not yet implemented" := rfl

/-- C5 (amended): a failing action application aborts the entire
`Execute` call: whenever some action of the block is a delete (which
always fails) and there is at least one match, `Execute` returns an
error and no Result at all — earlier successful mutations live only in
the shared tree, not in any output of this call. -/
theorem C5_action_error_aborts_run (pf : String → Except String (List GoVal))
    (render : ExecSt → String) (blk : LiftBlockG) (ms : List Match) (S0 : ExecSt)
    (ha : ∃ a ∈ blk.actions, a.delete ≠ none) (hms : ms ≠ []) :
    ∃ e, Execute pf render blk ms S0 = .error e := by
  obtain ⟨e, he⟩ := runActions_delete_err pf blk.actions ms (S0, [], []) ha hms
  exact ⟨e, by simp [Execute, he]⟩

/-- C5 (amended) witness at concrete inputs. -/
theorem C5_action_error_aborts_run_witness :
    (∃ a ∈ [(⟨none, some [], none, none⟩ : ActionG)], a.delete ≠ none) ∧
    ([⟨GoVal.vnil, []⟩] : List Match) ≠ [] ∧
    ∃ e, Execute (fun _ => .ok []) (fun _ => "")
        ⟨"b", [], [], [⟨none, some [], none, none⟩]⟩ [⟨.vnil, []⟩] ⟨[], [], []⟩ = .error e :=
  ⟨⟨⟨none, some [], none, none⟩, List.mem_singleton.mpr rfl, by simp⟩, by simp,
    C5_action_error_aborts_run (fun _ => .ok []) (fun _ => "")
      ⟨"b", [], [], [⟨none, some [], none, none⟩]⟩ [⟨.vnil, []⟩] ⟨[], [], []⟩
      ⟨⟨none, some [], none, none⟩, List.mem_singleton.mpr rfl, by simp⟩ (by simp)⟩

-- import reconciliation lemmas (shared by C6 and C8) --------------------

theorem memStr_iff (l : List String) (x : String) : memStr l x = true ↔ x ∈ l := by
  induction l with
  | nil => simp [memStr]
  | cons y rest ih =>
    simp only [memStr, Bool.or_eq_true, beq_iff_eq, List.mem_cons, ih]
    exact or_congr_left (by exact ⟨fun h => h.symm, fun h => h.symm⟩)

theorem memStr_append (l1 l2 : List String) (x : String) :
    memStr (l1 ++ l2) x = (memStr l1 x || memStr l2 x) := by
  induction l1 with
  | nil => simp [memStr]
  | cons y rest ih => simp [memStr, ih, Bool.or_assoc]

theorem filterMap_quoted (l : List String) (h : ∀ p ∈ l, trimQuotes (quoteStr p) = p) :
    (l.map (fun imp => SpecG.importSpec (quoteStr imp))).filterMap specPath = l := by
  induction l with
  | nil => simp
  | cons p rest ih =>
    simp only [List.map_cons, List.filterMap_cons, specPath]
    rw [h p (List.mem_cons_self _ _), ih (fun q hq => h q (List.mem_cons_of_mem _ hq))]

theorem toAdd_twice_nil (imps existing : List String) :
    imps.filter (fun i =>
      !(memStr (existing ++ imps.filter (fun j => !(memStr existing j))) i)) = [] := by
  rw [List.filter_eq_nil_iff]
  intro a ha
  rw [Bool.not_eq_true, Bool.not_eq_false', memStr_append]
  by_cases hc : memStr existing a
  · simp [hc]
  · have hm : a ∈ imps.filter (fun j => !(memStr existing j)) :=
      List.mem_filter.mpr ⟨ha, by simp [hc]⟩
    simp [(memStr_iff _ _).mpr hm]

theorem updateImportDecl_genDecl (imps : List String) (tok : String) (lp rp : Nat)
    (specs : List SpecG) :
    ∃ l2 r2, updateImportDecl imps (.genDecl tok lp rp specs) =
      .genDecl tok l2 r2 (specs ++ (imps.filter
        (fun imp => !(memStr (specs.filterMap specPath) imp))).map
          (fun imp => .importSpec (quoteStr imp))) := by
  simp only [updateImportDecl]
  split
  · exact ⟨1, 1, rfl⟩
  · exact ⟨lp, rp, rfl⟩

theorem updateImportDecl_eq (imps : List String) (tok : String) (lp rp : Nat)
    (specs : List SpecG) :
    updateImportDecl imps (.genDecl tok lp rp specs) =
      if (specs ++ (imps.filter
            (fun imp => !(memStr (specs.filterMap specPath) imp))).map
              (fun imp => SpecG.importSpec (quoteStr imp))).length > 1
      then .genDecl tok 1 1 (specs ++ (imps.filter
            (fun imp => !(memStr (specs.filterMap specPath) imp))).map
              (fun imp => SpecG.importSpec (quoteStr imp)))
      else .genDecl tok lp rp (specs ++ (imps.filter
            (fun imp => !(memStr (specs.filterMap specPath) imp))).map
              (fun imp => SpecG.importSpec (quoteStr imp))) := rfl

theorem updateImportDecl_idem (imps : List String) (d : DeclG)
    (h : ∀ p ∈ imps, trimQuotes (quoteStr p) = p) :
    updateImportDecl imps (updateImportDecl imps d) = updateImportDecl imps d := by
  cases d with
  | otherDecl i => rfl
  | genDecl tok lp rp specs =>
    have hq : ∀ p ∈ imps.filter
        (fun imp => !(memStr (specs.filterMap specPath) imp)),
        trimQuotes (quoteStr p) = p :=
      fun p hp => h p (List.mem_of_mem_filter hp)
    have hpaths :
        (specs ++ (imps.filter
            (fun imp => !(memStr (specs.filterMap specPath) imp))).map
              (fun imp => SpecG.importSpec (quoteStr imp))).filterMap specPath =
          specs.filterMap specPath ++ imps.filter
            (fun imp => !(memStr (specs.filterMap specPath) imp)) := by
      rw [List.filterMap_append, filterMap_quoted _ hq]
    have hnil : (imps.filter (fun i => !(memStr ((specs ++ (imps.filter
          (fun imp => !(memStr (specs.filterMap specPath) imp))).map
            (fun imp => SpecG.importSpec (quoteStr imp))).filterMap specPath) i))).map
          (fun imp => SpecG.importSpec (quoteStr imp)) = ([] : List SpecG) := by
      rw [hpaths, toAdd_twice_nil]
      rfl
    rw [updateImportDecl_eq imps tok lp rp specs]
    by_cases hlen : (specs ++ (imps.filter
        (fun imp => !(memStr (specs.filterMap specPath) imp))).map
          (fun imp => SpecG.importSpec (quoteStr imp))).length > 1
    · rw [if_pos hlen, updateImportDecl_eq, hnil]
      simp only [List.append_nil]
      rw [if_pos hlen]
    · rw [if_neg hlen, updateImportDecl_eq, hnil]
      simp only [List.append_nil]
      rw [if_neg hlen]

theorem isImportDecl_update (imps : List String) (d : DeclG) :
    isImportDecl (updateImportDecl imps d) = isImportDecl d := by
  cases d with
  | otherDecl i => rfl
  | genDecl tok lp rp specs =>
    simp only [updateImportDecl]
    split <;> rfl

theorem updateFirstImport_idem (imps : List String)
    (h : ∀ p ∈ imps, trimQuotes (quoteStr p) = p) :
    ∀ decls : List DeclG,
      updateFirstImport imps (updateFirstImport imps decls) = updateFirstImport imps decls
  | [] => rfl
  | d :: rest => by
    by_cases hd : isImportDecl d = true
    · simp [updateFirstImport, hd, isImportDecl_update, updateImportDecl_idem imps d h]
    · simp [updateFirstImport, hd, updateFirstImport_idem imps h rest]

theorem any_isImportDecl_updateFirst (imps : List String) :
    ∀ decls : List DeclG, decls.any isImportDecl = true →
      (updateFirstImport imps decls).any isImportDecl = true
  | [], h => by simp at h
  | d :: rest, h => by
    by_cases hd : isImportDecl d
    · simp [updateFirstImport, hd, isImportDecl_update]
    · simp only [List.any_cons, hd, Bool.false_or] at h
      simp [updateFirstImport, hd, any_isImportDecl_updateFirst imps rest h]

-- C8 --------------------------------------------------------------------

/-- C8: the import reconciliation is idempotent.  For every declaration
list and every import-to-add set of proper package names (names that are
unchanged by quoting then unquoting, as `context` and `time`, the only
names the executor ever inserts, are), running `addImports` twice
produces the same declarations as running it once: nothing already
present as an import spec is appended again, and the parenthesization is
stable. -/
theorem C8_addImports_idempotent (imps : List String) (decls : List DeclG)
    (h : ∀ p ∈ imps, trimQuotes (quoteStr p) = p) :
    addImports imps (addImports imps decls) = addImports imps decls := by
  by_cases he : imps.isEmpty = true
  · simp [addImports, he]
  · by_cases hany : decls.any isImportDecl = true
    · have hstep : addImports imps decls = updateFirstImport imps decls := by
        simp [addImports, he, hany]
      rw [hstep]
      have hany2 : (updateFirstImport imps decls).any isImportDecl = true :=
        any_isImportDecl_updateFirst imps decls hany
      have hstep2 : addImports imps (updateFirstImport imps decls) =
          updateFirstImport imps (updateFirstImport imps decls) := by
        simp [addImports, he, hany2]
      rw [hstep2]
      exact updateFirstImport_idem imps h decls
    · have h1 : isImportDecl (updateImportDecl imps (.genDecl "import" 1 1 [])) = true := by
        rw [isImportDecl_update]; rfl
      have hstep : addImports imps decls =
          updateImportDecl imps (.genDecl "import" 1 1 []) :: decls := by
        simp [addImports, he, hany]
      rw [hstep]
      have h2 : ((updateImportDecl imps (.genDecl "import" 1 1 []) :: decls).any
          isImportDecl) = true := by
        simp [List.any_cons, h1]
      have hstep2 : addImports imps (updateImportDecl imps (.genDecl "import" 1 1 []) :: decls) =
          updateFirstImport imps (updateImportDecl imps (.genDecl "import" 1 1 []) :: decls) := by
        simp [addImports, he, h2]
      rw [hstep2]
      simp only [updateFirstImport]
      rw [if_pos h1, updateImportDecl_idem imps _ h]

/-- C8 witness at concrete inputs. -/
theorem C8_addImports_idempotent_witness :
    (∀ p ∈ ["context"], trimQuotes (quoteStr p) = p) ∧
    addImports ["context"] (addImports ["context"] [.otherDecl 0]) =
      addImports ["context"] [.otherDecl 0] :=
  ⟨by decide, C8_addImports_idempotent ["context"] [.otherDecl 0] (by decide)⟩

-- C6 --------------------------------------------------------------------

theorem mem_insertSet_self (l : List String) (x : String) : x ∈ insertSet l x := by
  unfold insertSet
  by_cases h : memStr l x = true
  · rw [if_pos h]; exact (memStr_iff _ _).mp h
  · rw [if_neg h]; exact List.mem_append_right _ (List.mem_singleton.mpr rfl)

theorem mem_filterMap_paths (p : String) (specs : List SpecG) (imps : List String)
    (hp : p ∈ imps) (hq : trimQuotes (quoteStr p) = p) :
    p ∈ (specs ++ (imps.filter
        (fun imp => !(memStr (specs.filterMap specPath) imp))).map
          (fun imp => SpecG.importSpec (quoteStr imp))).filterMap specPath := by
  rw [List.filterMap_append]
  by_cases hc : memStr (specs.filterMap specPath) p = true
  · exact List.mem_append_left _ ((memStr_iff _ _).mp hc)
  · refine List.mem_append_right _ ?_
    refine List.mem_filterMap.mpr ⟨.importSpec (quoteStr p), ?_, ?_⟩
    · exact List.mem_map.mpr ⟨p, List.mem_filter.mpr ⟨hp, by simp [hc]⟩, rfl⟩
    · simp [specPath, hq]

theorem mem_importPaths_updateFirst (p : String) (imps : List String)
    (hp : p ∈ imps) (hq : trimQuotes (quoteStr p) = p) :
    ∀ decls : List DeclG, decls.any isImportDecl = true →
      p ∈ importPaths (updateFirstImport imps decls)
  | [], h => by simp at h
  | d :: rest, h => by
    by_cases hd : isImportDecl d = true
    · cases d with
      | otherDecl i => simp [isImportDecl] at hd
      | genDecl tok lp rp specs =>
        simp only [updateFirstImport, hd, if_true]
        obtain ⟨l2, r2, heq⟩ := updateImportDecl_genDecl imps tok lp rp specs
        rw [heq]
        simp only [importPaths, List.flatMap_cons]
        exact List.mem_append_left _ (mem_filterMap_paths p specs imps hp hq)
    · have h' : rest.any isImportDecl = true := by
        rcases List.any_eq_true.mp h with ⟨a, ha, hia⟩
        rcases List.mem_cons.mp ha with rfl | ha
        · exact absurd hia hd
        · exact List.any_eq_true.mpr ⟨a, ha, hia⟩
      simp only [updateFirstImport]
      rw [if_neg hd]
      have ih := mem_importPaths_updateFirst p imps hp hq rest h'
      simp only [importPaths, List.flatMap_cons] at ih ⊢
      exact List.mem_append_right _ ih

theorem mem_importPaths_addImports (p : String) (imps : List String) (decls : List DeclG)
    (hp : p ∈ imps) (hq : trimQuotes (quoteStr p) = p) :
    p ∈ importPaths (addImports imps decls) := by
  have hne : imps.isEmpty = false := by
    cases imps with
    | nil => simp at hp
    | cons a l => rfl
  by_cases hany : decls.any isImportDecl = true
  · simp only [addImports]
    rw [if_neg (by simp [hne]), if_pos hany]
    exact mem_importPaths_updateFirst p imps hp hq decls hany
  · simp only [addImports]
    rw [if_neg (by simp [hne]), if_neg hany]
    obtain ⟨l2, r2, heq⟩ := updateImportDecl_genDecl imps "import" 1 1 []
    rw [heq]
    simp only [importPaths, List.flatMap_cons]
    refine List.mem_append_left _ ?_
    simpa using mem_filterMap_paths p [] imps hp hq

/-- C6: counterexample.  `set $Params.first = "d time.Duration"`
executes successfully but adds nothing to the import-to-add set (only
the literal `context.` substring is recognized), so after import
reconciliation the file still has no `time` import — contrary to the
claim that any qualified prefix `pkg.` adds its package. -/
theorem C6_counterexample :
    executeSet ⟨"Params", ["first"], .strE "\x22d time.Duration\x22"⟩
        [("Params", .vnode 7 "FieldList" [])] ⟨[], [], []⟩ =
      .ok ⟨[], [], [.prependField 7 (.vnode 0 "Field"
        [("Names", .vlist [.vident 0 "d"]),
         ("Type", .vnode 0 "SelectorExpr"
           [("X", .vident 0 "time"), ("Sel", .vident 0 "Duration")])])]⟩ ∧
    importPaths (addImports ([] : List String) [.otherDecl 0]) = [] :=
  ⟨rfl, rfl⟩

/-- C6 (amended): the set statement infers only the package `context`:
a successful `set $X.first = "name type"` adds `context` to the
import-to-add set exactly when the type part contains the substring
`context.`, and adds nothing for any other package prefix; every
package in the import-to-add set (with a proper unquoted name) then
appears among the file's imports after reconciliation. -/
theorem C6_context_only_import_inference (st : SetStmtG) (b : Bindings) (S : ExecSt)
    (flId : Nat) (flds : List (String × GoVal)) (raw nm ty : String) (decls : List DeclG)
    (hlk : lookupB b st.binding = some (.vnode flId "FieldList" flds))
    (hseg : st.segments = ["first"])
    (hv : st.value = .strE raw)
    (hsp : splitN2 (trimQuotes raw) ' ' = [nm, ty]) :
    ∃ S', executeSet st b S = .ok S' ∧
      S'.imports = (if containsSub ty "context." = true then insertSet S.imports "context"
                    else S.imports) ∧
      (containsSub ty "context." = true → "context" ∈ S'.imports) ∧
      (∀ p ∈ S'.imports, trimQuotes (quoteStr p) = p →
        p ∈ importPaths (addImports S'.imports decls)) := by
  have hrun : executeSet st b S = .ok (if containsSub ty "context." = true
      then addImport (logMut S (.prependField flId (.vnode 0 "Field"
        [("Names", .vlist [.vident 0 nm]), ("Type", parseTypeExpr ty)]))) "context"
      else logMut S (.prependField flId (.vnode 0 "Field"
        [("Names", .vlist [.vident 0 nm]), ("Type", parseTypeExpr ty)]))) := by
    simp only [executeSet, hlk, hseg, hv, hsp]
    rfl
  refine ⟨_, hrun, ?_, ?_, ?_⟩
  · by_cases hctx : containsSub ty "context." = true
    · simp [hctx, addImport, logMut]
    · simp [hctx, logMut]
  · intro hctx
    simp only [hctx, if_true, addImport, logMut]
    exact mem_insertSet_self _ _
  · intro p hp hq
    exact mem_importPaths_addImports p _ decls hp hq

/-- C6 (amended) witness at concrete inputs. -/
theorem C6_context_only_import_inference_witness :
    lookupB [("Params", GoVal.vnode 7 "FieldList" [])] "Params" =
        some (.vnode 7 "FieldList" []) ∧
    splitN2 (trimQuotes "\x22ctx context.Context\x22") ' ' = ["ctx", "context.Context"] ∧
    ∃ S', executeSet ⟨"Params", ["first"], .strE "\x22ctx context.Context\x22"⟩
        [("Params", .vnode 7 "FieldList" [])] ⟨[], [], []⟩ = .ok S' ∧
      S'.imports = (if containsSub "context.Context" "context." = true
                    then insertSet [] "context" else []) ∧
      (containsSub "context.Context" "context." = true → "context" ∈ S'.imports) ∧
      (∀ p ∈ S'.imports, trimQuotes (quoteStr p) = p →
        p ∈ importPaths (addImports S'.imports [.otherDecl 0])) :=
  ⟨rfl, rfl,
    C6_context_only_import_inference ⟨"Params", ["first"], .strE "\x22ctx context.Context\x22"⟩
      [("Params", .vnode 7 "FieldList" [])] ⟨[], [], []⟩ 7 [] "\x22ctx context.Context\x22"
      "ctx" "context.Context" [.otherDecl 0] rfl rfl rfl rfl⟩

-- C9 --------------------------------------------------------------------

theorem takeWhile_all_append (p : Char → Bool) (l1 : List Char) (c : Char) (l2 : List Char)
    (h1 : ∀ a ∈ l1, p a = true) (h2 : p c = false) :
    (l1 ++ c :: l2).takeWhile p = l1 ∧ (l1 ++ c :: l2).dropWhile p = c :: l2 := by
  induction l1 with
  | nil => simp [List.takeWhile_cons, List.dropWhile_cons, h2]
  | cons a rest ih =>
    have ha : p a = true := h1 a (List.mem_cons_self _ _)
    have ih' := ih (fun x hx => h1 x (List.mem_cons_of_mem _ hx))
    simp [List.takeWhile_cons, List.dropWhile_cons, ha, ih'.1, ih'.2]

theorem parseInterpTok_plain (nm : String) (s : List Char)
    (hne : nm.toList ≠ []) (hw : ∀ c ∈ nm.toList, isWordChar c = true) :
    parseInterpTok ('$' :: '\x7b' :: (nm.toList ++ '\x7d' :: s)) =
      some (nm, "", '$' :: '\x7b' :: (nm.toList ++ ['\x7d']), s) := by
  have hb : isWordChar '\x7d' = false := rfl
  obtain ⟨ht, hd⟩ := takeWhile_all_append isWordChar nm.toList '\x7d' s hw hb
  have hnem : nm.toList.isEmpty = false := by
    cases hx : nm.toList with
    | nil => exact absurd hx hne
    | cons _ _ => rfl
  have htake : ('$' :: '\x7b' :: (nm.toList ++ '\x7d' :: s)).take
      (('$' :: '\x7b' :: (nm.toList ++ '\x7d' :: s)).length - s.length) =
      '$' :: '\x7b' :: (nm.toList ++ ['\x7d']) := by
    have hsplit : '$' :: '\x7b' :: (nm.toList ++ '\x7d' :: s) =
        ('$' :: '\x7b' :: (nm.toList ++ ['\x7d'])) ++ s := by
      simp
    rw [hsplit, List.length_append, Nat.add_sub_cancel, List.take_left]
  simp only [parseInterpTok]
  rw [ht, hd, hnem]
  show plainClose ('$' :: '\x7b' :: (nm.toList ++ '\x7d' :: s)) nm.toList ('\x7d' :: s) =
    some (nm, "", '$' :: '\x7b' :: (nm.toList ++ ['\x7d']), s)
  show some (String.mk nm.toList, "",
      ('$' :: '\x7b' :: (nm.toList ++ '\x7d' :: s)).take
        (('$' :: '\x7b' :: (nm.toList ++ '\x7d' :: s)).length - s.length), s) =
    some (nm, "", '$' :: '\x7b' :: (nm.toList ++ ['\x7d']), s)
  rw [htake]
  rfl

theorem interpChars_tok (b : Bindings) (nm : String) (s : List Char)
    (hne : nm.toList ≠ []) (hw : ∀ c ∈ nm.toList, isWordChar c = true) :
    interpChars b ('$' :: '\x7b' :: (nm.toList ++ '\x7d' :: s)) =
      (match lookupB b nm with
       | none => '$' :: '\x7b' :: (nm.toList ++ ['\x7d'])
       | some v => (bindingToString v).toList) ++ interpChars b s := by
  rw [interpChars]
  rw [parseInterpTok_plain nm s hne hw]
  rfl

/-- C9: an interpolation occurrence with an unbound name is left as the
literal matched text, and interpolation is single-pass: the text
substituted for a bound name is emitted verbatim (never re-scanned for
further patterns), and scanning continues after the occurrence. -/
theorem C9_interpolate_unbound_literal_single_pass (b : Bindings) (nm s : String)
    (hne : nm.toList ≠ []) (hw : ∀ c ∈ nm.toList, isWordChar c = true) :
    (lookupB b nm = none →
      interpolate ("$\x7b" ++ nm ++ "\x7d" ++ s) b =
        "$\x7b" ++ nm ++ "\x7d" ++ interpolate s b) ∧
    (∀ v, lookupB b nm = some v →
      interpolate ("$\x7b" ++ nm ++ "\x7d" ++ s) b =
        bindingToString v ++ interpolate s b) := by
  have hlist : ("$\x7b" ++ nm ++ "\x7d" ++ s).toList =
      '$' :: '\x7b' :: (nm.toList ++ '\x7d' :: s.toList) := by
    simp [String.toList, String.data_append]
  constructor
  · intro hlk
    show String.mk (interpChars b (("$\x7b" ++ nm ++ "\x7d" ++ s).toList)) = _
    rw [hlist, interpChars_tok b nm s.toList hne hw, hlk]
    rfl
  · intro v hlk
    show String.mk (interpChars b (("$\x7b" ++ nm ++ "\x7d" ++ s).toList)) = _
    rw [hlist, interpChars_tok b nm s.toList hne hw, hlk]
    rfl

/-- C9 witness at concrete inputs. -/
theorem C9_interpolate_unbound_literal_single_pass_witness :
    ("Name" : String).toList ≠ [] ∧
    (∀ c ∈ ("Name" : String).toList, isWordChar c = true) ∧
    ((lookupB [("Other", GoVal.vstr "x")] "Name" = none →
      interpolate ("$\x7b" ++ "Name" ++ "\x7d" ++ " t") [("Other", .vstr "x")] =
        "$\x7b" ++ "Name" ++ "\x7d" ++ interpolate " t" [("Other", .vstr "x")]) ∧
    (∀ v, lookupB [("Other", GoVal.vstr "x")] "Name" = some v →
      interpolate ("$\x7b" ++ "Name" ++ "\x7d" ++ " t") [("Other", .vstr "x")] =
        bindingToString v ++ interpolate " t" [("Other", .vstr "x")])) :=
  ⟨by decide, by decide,
    C9_interpolate_unbound_literal_single_pass [("Other", .vstr "x")] "Name" " t"
      (by decide) (by decide)⟩

-- C10 -------------------------------------------------------------------

theorem executeEmit_ok (em : EmitClauseG) (b : Bindings) (hast : em.astBody = none) :
    executeEmit em b = .ok (emitContent em b) := by
  rcases htm : em.template with _ | t
  · rcases hcb : em.codeBody with _ | t
    · simp only [executeEmit, emitContent, htm, hcb, hast]
    · simp only [executeEmit, emitContent, htm, hcb]
      rcases em.pkgName with _ | p <;> rfl
  · simp only [executeEmit, emitContent, htm]

theorem runMatches_emit (pf : String → Except String (List GoVal)) (em : EmitClauseG)
    (hast : em.astBody = none) :
    ∀ (ms : List Match) (S : ExecSt) (emitted : List (String × String)) (applied : List String),
      runMatches pf ⟨none, none, none, some em⟩ ms (S, emitted, applied) =
        .ok (S,
          ms.foldl (fun acc m => updateAssoc acc (trimQuotes em.file)
            (emitContent em m.bindings)) emitted,
          applied ++ ms.map (fun _ => "emit:" ++ trimQuotes em.file))
  | [], S, emitted, applied => by simp [runMatches]
  | m :: rest, S, emitted, applied => by
    have happ : applyActionToMatch pf ⟨none, none, none, some em⟩ m.bindings
        (S, emitted, applied) =
        .ok (S, updateAssoc emitted (trimQuotes em.file) (emitContent em m.bindings),
          applied ++ ["emit:" ++ trimQuotes em.file]) := by
      simp [applyActionToMatch, executeEmit_ok em m.bindings hast]
    simp only [runMatches, happ]
    rw [runMatches_emit pf em hast rest S _ _]
    simp [List.foldl_cons, List.map_cons, List.append_assoc]

theorem foldl_updateAssoc_same (k : String) (f : Match → String) :
    ∀ (ms : List Match) (c : String),
      ms.foldl (fun acc m => updateAssoc acc k (f m)) [(k, c)] =
        [(k, (ms.map f).getLastD c)]
  | [], c => rfl
  | m :: rest, c => by
    have h1 : updateAssoc [(k, c)] k (f m) = [(k, f m)] := by
      simp [updateAssoc]
    simp only [List.foldl_cons, h1, foldl_updateAssoc_same k f rest (f m),
      List.map_cons, List.getLastD_cons]

theorem getLastD_map (f : Match → String) :
    ∀ (l : List Match) (a : Match), (l.map f).getLastD (f a) = f (l.getLastD a)
  | [], _ => rfl
  | x :: xs, a => by
    simp only [List.map_cons, List.getLastD_cons, getLastD_map f xs x]

/-- C10: in the Go source's `Execute`, one emit action over multiple
matches writes `result.EmittedFiles[filename]` once per match into a
map, so the produced EmittedFiles holds exactly one entry for the
file, carrying the content interpolated from the LAST match in match
order, while the Applied log records one `emit:filename` line per
match. -/
theorem C10_emit_last_match_wins (pf : String → Except String (List GoVal))
    (render : ExecSt → String) (blk : LiftBlockG) (em : EmitClauseG)
    (ms : List Match) (mLast : Match) (S0 : ExecSt)
    (hblk : blk.actions = [⟨none, none, none, some em⟩])
    (hast : em.astBody = none)
    (hlast : ms.getLast? = some mLast) :
    Execute pf render blk ms S0 =
      .ok ⟨render { S0 with decls := addImports S0.imports S0.decls },
           [(trimQuotes em.file, emitContent em mLast.bindings)],
           ms.map (fun _ => "emit:" ++ trimQuotes em.file)⟩ := by
  cases ms with
  | nil => simp at hlast
  | cons m rest =>
    have hml : mLast = rest.getLastD m := by
      rw [List.getLastD_eq_getLast?]
      have hc := List.getLast?_cons (a := m) (l := rest)
      rw [hc] at hlast
      exact (Option.some.injEq _ _).mp hlast.symm
    have hfold : (m :: rest).foldl
        (fun acc mm => updateAssoc acc (trimQuotes em.file) (emitContent em mm.bindings)) [] =
        [(trimQuotes em.file, emitContent em mLast.bindings)] := by
      simp only [List.foldl_cons]
      have h0 : updateAssoc [] (trimQuotes em.file) (emitContent em m.bindings) =
          [(trimQuotes em.file, emitContent em m.bindings)] := rfl
      rw [h0, foldl_updateAssoc_same (trimQuotes em.file)
        (fun mm => emitContent em mm.bindings) rest (emitContent em m.bindings)]
      rw [show (rest.map (fun mm => emitContent em mm.bindings)).getLastD
          (emitContent em m.bindings) =
        emitContent em (rest.getLastD m).bindings from
          getLastD_map (fun mm => emitContent em mm.bindings) rest m]
      rw [← hml]
    simp only [Execute, hblk, runActions]
    rw [runMatches_emit pf em hast (m :: rest) S0 [] []]
    simp only [hfold, List.nil_append, runActions]

/-- C10 witness at concrete inputs: two matches naming the same file. -/
theorem C10_emit_last_match_wins_witness :
    ((⟨"t", [], [], [⟨none, none, none,
        some ⟨"proto", "\x22m.proto\x22", none, none, none, some "\x60x\x60"⟩⟩]⟩ :
      LiftBlockG).actions =
        [⟨none, none, none,
          some ⟨"proto", "\x22m.proto\x22", none, none, none, some "\x60x\x60"⟩⟩]) ∧
    ([⟨GoVal.vnil, [("N", GoVal.vstr "A")]⟩,
      ⟨GoVal.vnil, [("N", GoVal.vstr "B")]⟩] : List Match).getLast? =
        some ⟨GoVal.vnil, [("N", GoVal.vstr "B")]⟩ ∧
    Execute (fun _ => .ok []) (fun _ => "")
        ⟨"t", [], [], [⟨none, none, none,
          some ⟨"proto", "\x22m.proto\x22", none, none, none, some "\x60x\x60"⟩⟩]⟩
        [⟨.vnil, [("N", .vstr "A")]⟩, ⟨.vnil, [("N", .vstr "B")]⟩] ⟨[], [], []⟩ =
      .ok ⟨(fun (_ : ExecSt) => "") { (⟨[], [], []⟩ : ExecSt) with
              decls := addImports (⟨[], [], []⟩ : ExecSt).imports
                (⟨[], [], []⟩ : ExecSt).decls },
           [(trimQuotes "\x22m.proto\x22",
             emitContent ⟨"proto", "\x22m.proto\x22", none, none, none, some "\x60x\x60"⟩
               [("N", .vstr "B")])],
           ([⟨GoVal.vnil, [("N", GoVal.vstr "A")]⟩,
             ⟨GoVal.vnil, [("N", GoVal.vstr "B")]⟩] : List Match).map
             (fun _ => "emit:" ++ trimQuotes "\x22m.proto\x22")⟩ :=
  ⟨rfl, rfl,
    C10_emit_last_match_wins (fun _ => .ok []) (fun _ => "")
      ⟨"t", [], [], [⟨none, none, none,
        some ⟨"proto", "\x22m.proto\x22", none, none, none, some "\x60x\x60"⟩⟩]⟩
      ⟨"proto", "\x22m.proto\x22", none, none, none, some "\x60x\x60"⟩
      [⟨.vnil, [("N", .vstr "A")]⟩, ⟨.vnil, [("N", .vstr "B")]⟩]
      ⟨.vnil, [("N", .vstr "B")]⟩ ⟨[], [], []⟩ rfl rfl rfl⟩

end Stencil
